import Mathlib

/-!
The linter gochecknoglobals: the scanner for package-level variables.

A shallow embedding of `pkg/golinters/gochecknoglobals.go` and the properties
of its declaration scanner `checkFileForGlobals` and of its exemption policy
`isWhitelisted`, `isWhitelistedSelectorExpression`, `looksLikeError`.

Modelling conventions.

* Go strings are Lean `String`s: the names of a parsed file are valid UTF-8,
  and a byte-wise prefix test against an ASCII word agrees with the test on
  characters.
* The `go/ast` tree keeps the fields the linter reads. Pointers are non-nil
  (the parser never stores a nil `*ast.Ident`, `*ast.ValueSpec` or
  `*ast.GenDecl` in these places). Positions are kept for identifiers, the one
  position the linter reads, and for the keyword of a `GenDecl`; the position
  of a value spec is that of its first name.
* A failed type assertion `spec.(*ast.ValueSpec)` is a run-time panic: the
  scanner returns `none` for it and `some res` for a normal return.
* What the linter calls but does not define stands as a parameter: the
  `unicode.Upper` range table above Latin-1 and the repository helper
  `formatCode` (in `Deps`), the position table of the `token.FileSet`, and
  `goanalysis.NewIssue`. The definition `formatCode` is the rendering the
  specification gives for that helper.
* `Run` is the analyzer's function in a sequential run; `resIssues` is passed
  in and out as explicit state.
-/

set_option autoImplicit false

namespace Gochecknoglobals

/-! ## Syntax tree (`go/ast`, `go/token`) -/

/-- The type `token.Pos`: an offset into a file set. -/
abbrev Pos := Nat

/-- The type `token.Position`: a resolved source position. -/
structure Position where
  Filename : String
  Offset : Nat
  Line : Nat
  Column : Nat
  deriving DecidableEq

/-- The type `token.FileSet`, through the one method used, `Position`. -/
structure FileSet where
  Position : Pos → Position

/-- The tokens a `GenDecl` can carry (`token.IMPORT`, `CONST`, `TYPE`, `VAR`);
`ILLEGAL` stands for every other token. -/
inductive Token where
  | ILLEGAL
  | IMPORT
  | CONST
  | TYPE
  | VAR
  deriving DecidableEq

/-- The node `ast.Ident`. -/
structure Ident where
  NamePos : Pos
  Name : String
  deriving DecidableEq

/-- The method `(*ast.Ident).Pos`. -/
def Ident.Pos (i : Ident) : Pos := i.NamePos

/-- The expressions of `go/ast`. The kinds the linter inspects carry their
fields; `Other` stands for the remaining kinds (function literals, index and
slice expressions, type expressions, ...), tagged by the kind's name. -/
inductive Expr where
  | BadExpr
  | Ident (id : Ident)
  | BasicLit (kind : String) (value : String)
  | CompositeLit (type : Option Expr) (elts : List Expr)
  | ParenExpr (x : Expr)
  | SelectorExpr (x : Expr) (sel : Ident)
  | CallExpr (func : Expr) (args : List Expr)
  | StarExpr (x : Expr)
  | UnaryExpr (op : String) (x : Expr)
  | BinaryExpr (x : Expr) (op : String) (y : Expr)
  | Other (kind : String)

/-- The node `ast.ValueSpec`: `Names [Type] [= Values]`; `Typ` is the field
`Type` (nil when the declaration gives no type). -/
structure ValueSpec where
  Names : List Ident
  Typ : Option Expr
  Values : List Expr

/-- The interface `ast.Spec` with its three implementations. -/
inductive Spec where
  | ImportSpec (name : Option Ident) (path : String)
  | ValueSpec (v : ValueSpec)
  | TypeSpec (name : Ident) (type : Expr)

/-- The node `ast.GenDecl`: the position of the keyword, the keyword, the
specs. -/
structure GenDecl where
  TokPos : Pos
  Tok : Token
  Specs : List Spec

/-- The interface `ast.Decl` with its three implementations. -/
inductive Decl where
  | BadDecl
  | GenDecl (g : GenDecl)
  | FuncDecl (name : Ident)

/-- The node `ast.File`. -/
structure File where
  Name : Ident
  Decls : List Decl

/-- The interface `ast.Node`, the argument type of `isWhitelisted`: an
expression (identifiers included), a spec, a declaration, a file, or any
other node. -/
inductive Node where
  | expr (e : Expr)
  | spec (s : Spec)
  | decl (d : Decl)
  | file (f : File)
  | other

/-! ## Library functions -/

/-- What the linter uses without defining it. -/
structure Deps where
  /-- The range table `unicode.Upper` on code points above Latin-1. -/
  upperAboveLatin1 : Nat → Bool
  /-- The helper `formatCode(code, nil)` of the `golinters` package. -/
  formatCode : String → String

/-- The function `unicode.IsUpper`: on Latin-1 the property table (the letters
`A`..`Z`, `U+00C0`..`U+00D6`, `U+00D8`..`U+00DE`), above it the range table. -/
def unicodeIsUpper (deps : Deps) (r : Nat) : Bool :=
  if r ≤ 0xFF then
    (0x41 ≤ r && r ≤ 0x5A) || (0xC0 ≤ r && r ≤ 0xD6) || (0xD8 ≤ r && r ≤ 0xDE)
  else deps.upperAboveLatin1 r

/-- The function `utf8.DecodeRuneInString`, first component: the first code
point, `utf8.RuneError` (`U+FFFD`) for the empty string. -/
def decodeRuneInString (s : String) : Nat :=
  match s.toList with
  | [] => 0xFFFD
  | c :: _ => c.toNat

/-- The function `ast.IsExported`: the name begins with an upper-case letter. -/
def IsExported (deps : Deps) (name : String) : Bool :=
  unicodeIsUpper deps (decodeRuneInString name)

/-- The method `(*ast.Ident).IsExported`. -/
def Ident.IsExported (deps : Deps) (i : Ident) : Bool :=
  Gochecknoglobals.IsExported deps i.Name

/-- The function `strings.HasPrefix`:
`len(s) >= len(pfx) && s[:len(pfx)] == pfx`. -/
def HasPrefix (s pfx : String) : Bool :=
  decide (pfx.length ≤ s.length) && (s.toList.take pfx.length == pfx.toList)

/-! ## The linter -/

/-- The type `result.Issue`, with the fields the linter sets. -/
structure Issue where
  Pos : Position
  Text : String
  FromLinter : String
  deriving DecidableEq

/-- The constant `gochecknoglobalsName`. -/
def gochecknoglobalsName : String := "gochecknoglobals"

/-- The type `whitelistedExpression`. -/
structure whitelistedExpression where
  Name : String
  SelName : String
  deriving DecidableEq

/-- The local table `whitelist` of `isWhitelistedSelectorExpression`. -/
def whitelist : List whitelistedExpression :=
  [⟨"errors", "New"⟩, ⟨"fmt", "Errorf"⟩, ⟨"regexp", "MustCompile"⟩]

/-- The function `looksLikeError`. -/
def looksLikeError (deps : Deps) (i : Ident) : Bool :=
  let pfx := if i.IsExported deps then "Err" else "err"
  HasPrefix i.Name pfx

/-- The function `isWhitelistedSelectorExpression`, on the fields `X` and `Sel`
of the selector expression: false unless `X` is an identifier, then the search
of the table for the pair of names. -/
def isWhitelistedSelectorExpression (vX : Expr) (vSel : Ident) : Bool :=
  match vX with
  | .Ident x => whitelist.any (fun i => x.Name == i.Name && vSel.Name == i.SelName)
  | _ => false

/-- The function `isWhitelisted`: a type switch on the node. -/
def isWhitelisted (deps : Deps) (v : Node) : Bool :=
  match v with
  | .expr (.Ident i) => i.Name == "_" || i.Name == "version" || looksLikeError deps i
  | .expr (.CallExpr (.SelectorExpr x sel) _) => isWhitelistedSelectorExpression x sel
  | .expr (.CompositeLit (some (.SelectorExpr x sel)) _) => isWhitelistedSelectorExpression x sel
  | _ => false

/-- The issue appended for the name `vn` in `checkFileForGlobals`. -/
def newIssue (deps : Deps) (fset : FileSet) (vn : Ident) : Issue :=
  { Pos := fset.Position vn.Pos
    Text := deps.formatCode vn.Name ++ " is a global variable"
    FromLinter := gochecknoglobalsName }

/-- The innermost loop of `checkFileForGlobals`, over `valueSpec.Names`; `res`
is the slice of issues built so far. -/
def namesLoop (deps : Deps) (fset : FileSet) : List Ident → List Issue → List Issue
  | [], res => res
  | vn :: rest, res =>
    if isWhitelisted deps (.expr (.Ident vn)) then namesLoop deps fset rest res
    else namesLoop deps fset rest (res ++ [newIssue deps fset vn])

/-- The middle loop of `checkFileForGlobals`, over `genDecl.Specs`; the type
assertion `spec.(*ast.ValueSpec)` panics (`none`) on any other spec. -/
def specsLoop (deps : Deps) (fset : FileSet) : List Spec → List Issue → Option (List Issue)
  | [], res => some res
  | .ValueSpec valueSpec :: rest, res =>
    specsLoop deps fset rest (namesLoop deps fset valueSpec.Names res)
  | _ :: _, _ => none

/-- The outer loop of `checkFileForGlobals`, over `f.Decls`. -/
def declsLoop (deps : Deps) (fset : FileSet) : List Decl → List Issue → Option (List Issue)
  | [], res => some res
  | .GenDecl genDecl :: rest, res =>
    if genDecl.Tok ≠ Token.VAR then declsLoop deps fset rest res
    else
      match specsLoop deps fset genDecl.Specs res with
      | none => none
      | some res1 => declsLoop deps fset rest res1
  | _ :: rest, res => declsLoop deps fset rest res

/-- The function `checkFileForGlobals`: `some res` for the returned issues,
`none` for a panic. -/
def checkFileForGlobals (deps : Deps) (f : File) (fset : FileSet) : Option (List Issue) :=
  declsLoop deps fset f.Decls []

/-! ## The specification's reading of a file -/

/-- The names a spec declares when it is a value spec (none otherwise). -/
def Spec.names : Spec → List Ident
  | .ValueSpec v => v.Names
  | _ => []

/-- Whether a spec is a value spec. -/
def Spec.isValueSpec : Spec → Bool
  | .ValueSpec _ => true
  | _ => false

/-- Whether a top-level declaration is a var group (`var x = ...` or
`var ( ... )`). -/
def Decl.isVarGroup : Decl → Bool
  | .GenDecl g => decide (g.Tok = Token.VAR)
  | _ => false

/-- The specs of a declaration when it is a var group (none otherwise). -/
def Decl.varSpecs : Decl → List Spec
  | .GenDecl g => if g.Tok = Token.VAR then g.Specs else []
  | _ => []

/-- The specs of the top-level var groups of a file, in source order. -/
def File.varSpecs (f : File) : List Spec := f.Decls.flatMap Decl.varSpecs

/-- Whether the var groups of a file contain only value specs. -/
def File.onlyValueSpecs (f : File) : Bool := f.varSpecs.all Spec.isValueSpec

/-- The names declared by the top-level var groups of a file: the declarations
in order, within a var group the specs in order, within a spec the names in
order. -/
def File.varNames (f : File) : List Ident := f.varSpecs.flatMap Spec.names

/-- The names of a list that are not whitelisted, in order. -/
def notWhitelisted (deps : Deps) (ns : List Ident) : List Ident :=
  ns.filter (fun n => !isWhitelisted deps (.expr (.Ident n)))

/-- The findings the specification expects for a file: the declared names of
the top-level var groups in source order, the whitelisted ones dropped, each
remaining name mapped to its finding. -/
def expectedFindings (deps : Deps) (fset : FileSet) (f : File) : List Issue :=
  (notWhitelisted deps f.varNames).map (newIssue deps fset)

/-- A string begins with a given word. -/
def StartsWith (s w : String) : Prop := ∃ t : String, s = w ++ t

/-- An expression is a selector expression `owner.member` whose owner is a
plain identifier and whose pair of names is one of `errors.New`, `fmt.Errorf`,
`regexp.MustCompile`. -/
def ListedSelector (e : Expr) : Prop :=
  ∃ owner member : Ident, e = .SelectorExpr (.Ident owner) member ∧
    ((owner.Name = "errors" ∧ member.Name = "New") ∨
      (owner.Name = "fmt" ∧ member.Name = "Errorf") ∨
      (owner.Name = "regexp" ∧ member.Name = "MustCompile"))

/-! ## Sample inputs -/

/-- Sample dependencies: no upper-case letter above Latin-1, names rendered
as they are spelled. -/
def plainDeps : Deps := ⟨fun _ => false, fun code => code⟩

/-- Sample file set: one file `a.go` of one line. -/
def lineFileSet : FileSet := ⟨fun p => ⟨"a.go", p, 1, p + 1⟩⟩

/-- The call `owner.member(args)`. -/
def selectorCall (owner member : Ident) (args : List Expr) : Expr :=
  .CallExpr (.SelectorExpr (.Ident owner) member) args

/-- The declaration `var name = value`, the keyword four columns before the
name. -/
def varDecl (name : Ident) (value : Expr) : Decl :=
  .GenDecl ⟨name.NamePos - 4, Token.VAR, [.ValueSpec ⟨[name], none, [value]⟩]⟩

/-- The file of the specification's scenario: `var Foo = 1`,
`var _ = compute()`, `var errBar = errors.New("x")`, `var version = "1.0"`,
`var Handler = http.NewServeMux()`; `pos k` is the position of the `k`-th
identifier of the file. -/
def scenarioFile (pos : Nat → Pos) : File :=
  { Name := ⟨pos 0, "p"⟩
    Decls :=
      [ varDecl ⟨pos 1, "Foo"⟩ (.BasicLit "INT" "1"),
        varDecl ⟨pos 2, "_"⟩ (.CallExpr (.Ident ⟨pos 3, "compute"⟩) []),
        varDecl ⟨pos 4, "errBar"⟩
          (selectorCall ⟨pos 5, "errors"⟩ ⟨pos 6, "New"⟩ [.BasicLit "STRING" "\"x\""]),
        varDecl ⟨pos 7, "version"⟩ (.BasicLit "STRING" "\"1.0\""),
        varDecl ⟨pos 8, "Handler"⟩ (selectorCall ⟨pos 9, "http"⟩ ⟨pos 10, "NewServeMux"⟩ []) ] }

/-- The file `package p`, `var foo = errors.New("x")`, with the positions of
its text. -/
def errorsNewFile : File :=
  { Name := ⟨9, "p"⟩
    Decls :=
      [varDecl ⟨16, "foo"⟩ (selectorCall ⟨22, "errors"⟩ ⟨29, "New"⟩ [.BasicLit "STRING" "\"x\""])] }

/-- A file with grouped, multi-name and typed var declarations between other
declarations, with the positions of its text:
`import "fmt"`, `const Max = 1`, `var ( a, errA = 1, 2; Version string )`,
`func Foo()`, `type Handler int`, `var _, b, ErrB = f()`,
`var r = pkg.New()`, `var version, c int`. -/
def mixedFile : File :=
  { Name := ⟨9, "p"⟩
    Decls :=
      [ .GenDecl ⟨12, Token.IMPORT, [.ImportSpec none "\"fmt\""]⟩,
        .GenDecl ⟨26, Token.CONST, [.ValueSpec ⟨[⟨32, "Max"⟩], none, [.BasicLit "INT" "1"]⟩]⟩,
        .GenDecl ⟨41, Token.VAR,
          [ .ValueSpec ⟨[⟨48, "a"⟩, ⟨51, "errA"⟩], none,
              [.BasicLit "INT" "1", .BasicLit "INT" "2"]⟩,
            .ValueSpec ⟨[⟨64, "Version"⟩], some (.Ident ⟨72, "string"⟩), []⟩ ]⟩,
        .FuncDecl ⟨87, "Foo"⟩,
        .GenDecl ⟨97, Token.TYPE, [.TypeSpec ⟨102, "Handler"⟩ (.Ident ⟨110, "int"⟩)]⟩,
        .GenDecl ⟨115, Token.VAR,
          [.ValueSpec ⟨[⟨119, "_"⟩, ⟨122, "b"⟩, ⟨125, "ErrB"⟩], none,
            [.CallExpr (.Ident ⟨132, "f"⟩) []]⟩]⟩,
        varDecl ⟨141, "r"⟩ (selectorCall ⟨145, "pkg"⟩ ⟨149, "New"⟩ []),
        .GenDecl ⟨156, Token.VAR,
          [.ValueSpec ⟨[⟨160, "version"⟩, ⟨169, "c"⟩], some (.Ident ⟨171, "int"⟩), []⟩]⟩ ] }

/-- A file without a var declaration, whose type group holds an import spec (a
tree the parser does not build):
`import "fmt"`, `const Foo = 1`, `func Bar()`, `type ( Handler int; <import> )`. -/
def noVarFile : File :=
  { Name := ⟨9, "p"⟩
    Decls :=
      [ .GenDecl ⟨12, Token.IMPORT, [.ImportSpec none "\"fmt\""]⟩,
        .GenDecl ⟨26, Token.CONST, [.ValueSpec ⟨[⟨32, "Foo"⟩], none, [.BasicLit "INT" "1"]⟩]⟩,
        .FuncDecl ⟨46, "Bar"⟩,
        .GenDecl ⟨56, Token.TYPE,
          [.TypeSpec ⟨64, "Handler"⟩ (.Ident ⟨72, "int"⟩), .ImportSpec none "\"os\""]⟩,
        .BadDecl ] }

/-- The findings of `mixedFile` under the sample dependencies: the names `a`,
`Version`, `b`, `r` and `c`. -/
def mixedFindings : List Issue :=
  [⟨48, "a"⟩, ⟨64, "Version"⟩, ⟨122, "b"⟩, ⟨141, "r"⟩, ⟨169, "c"⟩].map
    (newIssue plainDeps lineFileSet)

/-! ## Positions of the enclosing nodes (`go/ast`) -/

/-- The method `(*ast.GenDecl).Pos`: the position of the keyword. -/
def GenDecl.Pos (d : GenDecl) : Pos := d.TokPos

/-- The method `(*ast.ValueSpec).Pos`: the position of the first name,
`s.Names[0].Pos()`; `none` stands for the index panic on an empty list. -/
def ValueSpec.Pos (s : ValueSpec) : Option Pos := s.Names.head?.map Ident.Pos

/-- Whether in every group of the file the keyword lies before the names
the group declares, as in every parsed file. -/
def File.keywordFirst (f : File) : Bool :=
  f.Decls.all fun d =>
    match d with
    | .GenDecl g => g.Specs.all fun s => s.names.all fun n => decide (g.Pos < n.Pos)
    | _ => true

/-- The reading of a finding's position that excludes the enclosing nodes:
every finding has the position of a declared name of a top-level var group,
which is neither the position of that group nor the position of the value
spec of the name. -/
def PosOfNameOnly (fset : FileSet) (f : File) (res : List Issue) : Prop :=
  ∀ iss ∈ res, ∃ (g : GenDecl) (vs : ValueSpec) (n : Ident),
    Decl.GenDecl g ∈ f.Decls ∧ g.Tok = Token.VAR ∧ Spec.ValueSpec vs ∈ g.Specs ∧ n ∈ vs.Names ∧
      iss.Pos = fset.Position n.Pos ∧ iss.Pos ≠ fset.Position g.Pos ∧
      ∀ p : Pos, vs.Pos = some p → iss.Pos ≠ fset.Position p

/-- The positions of the keywords of the var groups of a file and of the names
they declare. -/
def File.varPositions (f : File) : List Pos :=
  f.Decls.flatMap fun d =>
    match d with
    | .GenDecl g =>
      if g.Tok = Token.VAR then g.Pos :: g.Specs.flatMap fun s => s.names.map Ident.Pos
      else []
    | _ => []

/-- The file set resolves distinct positions of a list to distinct source
positions, as `token.FileSet` does for the positions inside its files. -/
def ResolvesDistinct (fset : FileSet) (ps : List Pos) : Prop :=
  ∀ p ∈ ps, ∀ q ∈ ps, fset.Position p = fset.Position q → p = q

/-- Whether in every spec of every group of the file the names stand at
increasing positions, as in every parsed file. -/
def File.namesAscending (f : File) : Bool :=
  f.Decls.all fun d =>
    match d with
    | .GenDecl g =>
      g.Specs.all fun s => decide ((s.names.map Ident.Pos).Pairwise (fun p q => p < q))
    | _ => true

/-- The finding `iss` has the position of the name `n` of the value spec `vs`
of the top-level var group `g` of the file. -/
def PosOfName (fset : FileSet) (f : File) (iss : Issue) (g : GenDecl) (vs : ValueSpec)
    (n : Ident) : Prop :=
  Decl.GenDecl g ∈ f.Decls ∧ g.Tok = Token.VAR ∧ Spec.ValueSpec vs ∈ g.Specs ∧ n ∈ vs.Names ∧
    iss.Pos = fset.Position n.Pos

/-! ## Transformations of a file -/

/-- The file with every top-level declaration that is not a var group
removed. -/
def File.keepVarGroups (f : File) : File :=
  { f with Decls := f.Decls.filter Decl.isVarGroup }

/-- A spec without its initializers and declared type, when it is a value
spec. -/
def Spec.eraseInit : Spec → Spec
  | .ValueSpec v => .ValueSpec { v with Typ := none, Values := [] }
  | s => s

/-- A declaration whose value specs, when it is a var group, are without
initializers and declared types. -/
def Decl.eraseInit : Decl → Decl
  | .GenDecl g =>
    if g.Tok = Token.VAR then .GenDecl { g with Specs := g.Specs.map Spec.eraseInit }
    else .GenDecl g
  | d => d

/-- A file whose var groups are without initializers and declared types: two
files with the same erasure differ at most in the `Values` and `Type` of the
value specs of their var groups. -/
def File.eraseInit (f : File) : File :=
  { f with Decls := f.Decls.map Decl.eraseInit }

/-- One declaration `var n [type] [= value]` for each name of a value spec, in
order; the `k`-th name takes the `k`-th value when there is one. -/
def splitNames (tokPos : Pos) (typ : Option Expr) : List Ident → List Expr → List Decl
  | [], _ => []
  | n :: ns, vals =>
    .GenDecl ⟨tokPos, Token.VAR, [.ValueSpec ⟨[n], typ, vals.head?.toList⟩]⟩ ::
      splitNames tokPos typ ns vals.tail

/-- A var group split into single-name var declarations, in the order of its
specs and of their names (a spec that is not a value spec stays, in a group of
its own); any other declaration is left as it is. -/
def Decl.split : Decl → List Decl
  | .GenDecl g =>
    if g.Tok = Token.VAR then
      g.Specs.flatMap fun s =>
        match s with
        | .ValueSpec vs => splitNames g.TokPos vs.Typ vs.Names vs.Values
        | other => [.GenDecl ⟨g.TokPos, Token.VAR, [other]⟩]
    else [.GenDecl g]
  | d => [d]

/-! ## The specification's helper -/

/-- Modelled from the spec: the helper `formatCode(code, nil)` of the package
`golinters`, which `checkFileForGlobals` calls and which is defined in another
file of the package; the specification has the declared name "rendered in its
source spelling". -/
def formatCode (code : String) : String := code

/-! ## The scanner with the log of its calls of `isWhitelisted` -/

/-- The loop `namesLoop` with the log of the nodes passed to `isWhitelisted`. -/
def namesLoopTraced (deps : Deps) (fset : FileSet) :
    List Ident → List Node × List Issue → List Node × List Issue
  | [], st => st
  | vn :: rest, (log, res) =>
    if isWhitelisted deps (.expr (.Ident vn)) then
      namesLoopTraced deps fset rest (log ++ [.expr (.Ident vn)], res)
    else
      namesLoopTraced deps fset rest (log ++ [.expr (.Ident vn)], res ++ [newIssue deps fset vn])

/-- The loop `specsLoop` with the log; the log is kept at a panic. -/
def specsLoopTraced (deps : Deps) (fset : FileSet) :
    List Spec → List Node × List Issue → List Node × Option (List Issue)
  | [], (log, res) => (log, some res)
  | .ValueSpec valueSpec :: rest, st =>
    specsLoopTraced deps fset rest (namesLoopTraced deps fset valueSpec.Names st)
  | _ :: _, (log, _) => (log, none)

/-- The loop `declsLoop` with the log. -/
def declsLoopTraced (deps : Deps) (fset : FileSet) :
    List Decl → List Node × List Issue → List Node × Option (List Issue)
  | [], (log, res) => (log, some res)
  | .GenDecl genDecl :: rest, (log, res) =>
    if genDecl.Tok ≠ Token.VAR then declsLoopTraced deps fset rest (log, res)
    else
      match specsLoopTraced deps fset genDecl.Specs (log, res) with
      | (log1, none) => (log1, none)
      | (log1, some res1) => declsLoopTraced deps fset rest (log1, res1)
  | _ :: rest, st => declsLoopTraced deps fset rest st

/-- The function `checkFileForGlobals` with the log of the nodes it passes to
`isWhitelisted`, in the order of the calls. -/
def checkFileForGlobalsTraced (deps : Deps) (f : File) (fset : FileSet) :
    List Node × Option (List Issue) :=
  declsLoopTraced deps fset f.Decls ([], [])

/-! ## The analyzer's `Run` -/

/-- The type `analysis.Pass`, with the fields `Run` reads. -/
structure Pass where
  Files : List File
  Fset : FileSet

/-- The loop `for i := range fileIssues` of `Run`; `NewIssue` is
`goanalysis.NewIssue`, `res` the slice built so far. -/
def wrapLoop {α : Type} (NewIssue : Issue → Pass → α) (pass : Pass) :
    List Issue → List α → List α
  | [], res => res
  | i :: rest, res => wrapLoop NewIssue pass rest (res ++ [NewIssue i pass])

/-- The loop `for _, file := range pass.Files` of `Run`; `none` when
`checkFileForGlobals` panics. -/
def filesLoop {α : Type} (deps : Deps) (NewIssue : Issue → Pass → α) (pass : Pass) :
    List File → List α → Option (List α)
  | [], res => some res
  | file :: rest, res =>
    match checkFileForGlobals deps file pass.Fset with
    | none => none
    | some fileIssues => filesLoop deps NewIssue pass rest (wrapLoop NewIssue pass fileIssues res)

/-- The function `Run` of the analyzer in a sequential run, where the lock and
the unlock of `mu` have no effect: from the pass and the content of
`resIssues` to the returned pair (a nil interface value and a nil error are
`none`) and the new content of `resIssues`; `none` for a panic. -/
def Run {α : Type} (deps : Deps) (NewIssue : Issue → Pass → α) (pass : Pass)
    (resIssues : List α) : Option ((Option Unit × Option String) × List α) :=
  match filesLoop deps NewIssue pass pass.Files [] with
  | none => none
  | some res =>
    if res.length = 0 then some ((none, none), resIssues)
    else some ((none, none), resIssues ++ res)

/-! ## More sample inputs -/

/-- A file whose var group holds an import spec (a tree the parser does not
build): `var foo = errors.New("x")`, `var ( <import "os"> )`. -/
def badSpecFile : File :=
  { Name := ⟨9, "p"⟩
    Decls :=
      [ varDecl ⟨16, "foo"⟩ (selectorCall ⟨22, "errors"⟩ ⟨29, "New"⟩ []),
        .GenDecl ⟨40, Token.VAR, [.ImportSpec none "\"os\""]⟩ ] }

/-- The file `mixedFile` with other initializers and types in its var groups:
`var ( a, errA = f(); Version = errors.New("x") )`, `var _, b, ErrB int`,
`var r string`, `var version, c = 1, 2`. -/
def mixedFileOtherInit : File :=
  { Name := ⟨9, "p"⟩
    Decls :=
      [ .GenDecl ⟨12, Token.IMPORT, [.ImportSpec none "\"fmt\""]⟩,
        .GenDecl ⟨26, Token.CONST, [.ValueSpec ⟨[⟨32, "Max"⟩], none, [.BasicLit "INT" "1"]⟩]⟩,
        .GenDecl ⟨41, Token.VAR,
          [ .ValueSpec ⟨[⟨48, "a"⟩, ⟨51, "errA"⟩], none, [.CallExpr (.Ident ⟨58, "f"⟩) []]⟩,
            .ValueSpec ⟨[⟨64, "Version"⟩], none,
              [selectorCall ⟨74, "errors"⟩ ⟨81, "New"⟩ [.BasicLit "STRING" "\"x\""]]⟩ ]⟩,
        .FuncDecl ⟨87, "Foo"⟩,
        .GenDecl ⟨97, Token.TYPE, [.TypeSpec ⟨102, "Handler"⟩ (.Ident ⟨110, "int"⟩)]⟩,
        .GenDecl ⟨115, Token.VAR,
          [.ValueSpec ⟨[⟨119, "_"⟩, ⟨122, "b"⟩, ⟨125, "ErrB"⟩], some (.Ident ⟨130, "int"⟩), []⟩]⟩,
        .GenDecl ⟨137, Token.VAR, [.ValueSpec ⟨[⟨141, "r"⟩], some (.Ident ⟨143, "string"⟩), []⟩]⟩,
        .GenDecl ⟨156, Token.VAR,
          [.ValueSpec ⟨[⟨160, "version"⟩, ⟨169, "c"⟩], none,
            [.BasicLit "INT" "1", .BasicLit "INT" "2"]⟩]⟩ ] }

/-- A pass of three files over the sample file set. -/
def samplePass : Pass := ⟨[errorsNewFile, noVarFile, mixedFile], lineFileSet⟩

/-- A pass one of whose files makes `checkFileForGlobals` panic. -/
def badPass : Pass := ⟨[errorsNewFile, badSpecFile], lineFileSet⟩

/-- A file all of whose declared names are whitelisted, with the positions of
its text: `var _ = f()`, `var errA = errors.New("x")`, `var version = "1"`. -/
def exemptFile : File :=
  { Name := ⟨9, "p"⟩
    Decls :=
      [ varDecl ⟨16, "_"⟩ (.CallExpr (.Ident ⟨20, "f"⟩) []),
        varDecl ⟨28, "errA"⟩
          (selectorCall ⟨35, "errors"⟩ ⟨42, "New"⟩ [.BasicLit "STRING" "\"x\""]),
        varDecl ⟨55, "version"⟩ (.BasicLit "STRING" "\"1\"") ] }

/-- A pass none of whose files yields a finding. -/
def quietPass : Pass := ⟨[noVarFile, exemptFile], lineFileSet⟩

/-- Sample `goanalysis.NewIssue`: the issue together with the pass. -/
def pairIssue (i : Issue) (pass : Pass) : Issue × Pass := (i, pass)

/-- Sample content of `resIssues` before a run: one issue of an earlier pass. -/
def earlierIssues : List (Issue × Pass) :=
  [pairIssue (newIssue plainDeps lineFileSet ⟨16, "old"⟩) quietPass]

/-! ## The loops of the scanner -/

theorem namesLoop_eq (deps : Deps) (fset : FileSet) (ns : List Ident) (res : List Issue) :
    namesLoop deps fset ns res = res ++ (notWhitelisted deps ns).map (newIssue deps fset) := by
  induction ns generalizing res with
  | nil => simp [namesLoop, notWhitelisted]
  | cons vn rest ih =>
    by_cases h : isWhitelisted deps (.expr (.Ident vn)) = true
    · simp [namesLoop, notWhitelisted, h, ih]
    · simp [namesLoop, notWhitelisted, h, ih]

theorem notWhitelisted_append (deps : Deps) (xs ys : List Ident) :
    notWhitelisted deps (xs ++ ys) = notWhitelisted deps xs ++ notWhitelisted deps ys := by
  simp [notWhitelisted]

theorem specsLoop_eq (deps : Deps) (fset : FileSet) (ss : List Spec) (res : List Issue) :
    specsLoop deps fset ss res =
      if ss.all Spec.isValueSpec then
        some (res ++ (notWhitelisted deps (ss.flatMap Spec.names)).map (newIssue deps fset))
      else none := by
  induction ss generalizing res with
  | nil => simp [specsLoop, notWhitelisted]
  | cons s rest ih =>
    cases s with
    | ValueSpec v =>
      simp only [specsLoop, ih, namesLoop_eq, List.all_cons, Spec.isValueSpec, Bool.true_and,
        List.flatMap_cons, Spec.names, notWhitelisted_append, List.map_append, List.append_assoc]
    | ImportSpec n p => simp [specsLoop, Spec.isValueSpec]
    | TypeSpec n t => simp [specsLoop, Spec.isValueSpec]

theorem declsLoop_eq (deps : Deps) (fset : FileSet) (ds : List Decl) (res : List Issue) :
    declsLoop deps fset ds res =
      if (ds.flatMap Decl.varSpecs).all Spec.isValueSpec then
        some (res ++ (notWhitelisted deps ((ds.flatMap Decl.varSpecs).flatMap Spec.names)).map
          (newIssue deps fset))
      else none := by
  induction ds generalizing res with
  | nil => simp [declsLoop, notWhitelisted]
  | cons d rest ih =>
    cases d with
    | BadDecl => simp [declsLoop, ih, Decl.varSpecs]
    | FuncDecl n => simp [declsLoop, ih, Decl.varSpecs]
    | GenDecl g =>
      by_cases hv : g.Tok = Token.VAR
      · by_cases hs : g.Specs.all Spec.isValueSpec = true
        · simp [declsLoop, ih, Decl.varSpecs, hv, specsLoop_eq, hs, notWhitelisted_append]
        · simp [declsLoop, Decl.varSpecs, hv, specsLoop_eq, hs]
      · simp [declsLoop, ih, Decl.varSpecs, hv]

/-- The scanner in closed form: a panic when a var group holds a spec that is
not a value spec, the expected findings otherwise. -/
theorem checkFileForGlobals_eq (deps : Deps) (f : File) (fset : FileSet) :
    checkFileForGlobals deps f fset =
      if f.onlyValueSpecs then some (expectedFindings deps fset f) else none := by
  simp [checkFileForGlobals, declsLoop_eq, File.onlyValueSpecs, File.varSpecs, expectedFindings,
    File.varNames]

/-! ## Prefixes and exported names -/

theorem hasPrefix_iff (s w : String) : HasPrefix s w = true ↔ StartsWith s w := by
  constructor
  · intro h
    simp only [HasPrefix, Bool.and_eq_true, decide_eq_true_eq, beq_iff_eq] at h
    refine ⟨⟨s.toList.drop w.length⟩, ?_⟩
    apply String.ext
    simp only [String.data_append]
    have h2 : s.data.take w.length = w.data := h.2
    calc s.data = s.data.take w.length ++ s.data.drop w.length := (List.take_append_drop _ _).symm
      _ = w.data ++ s.data.drop w.length := by rw [h2]
  · rintro ⟨t, rfl⟩
    have h1 : (w ++ t).toList = w.toList ++ t.toList := String.data_append w t
    have h2 : w.length = w.toList.length := rfl
    simp only [HasPrefix, Bool.and_eq_true, decide_eq_true_eq, beq_iff_eq, h1, String.length_append]
    exact ⟨Nat.le_add_right _ _, by rw [h2, List.take_left]⟩

theorem isExported_cons (deps : Deps) (c : Char) (cs : List Char) :
    IsExported deps ⟨c :: cs⟩ = unicodeIsUpper deps c.toNat := by
  simp [IsExported, decodeRuneInString, String.toList]

theorem isExported_err (deps : Deps) (t : String) : IsExported deps ("err" ++ t) = false := by
  have h : "err" ++ t = ⟨'e' :: ('r' :: 'r' :: t.data)⟩ := by
    apply String.ext; simp [String.data_append]
  rw [h, isExported_cons]; rfl

theorem isExported_Err (deps : Deps) (t : String) : IsExported deps ("Err" ++ t) = true := by
  have h : "Err" ++ t = ⟨'E' :: ('r' :: 'r' :: t.data)⟩ := by
    apply String.ext; simp [String.data_append]
  rw [h, isExported_cons]; rfl

theorem looksLikeError_iff (deps : Deps) (i : Ident) :
    looksLikeError deps i = true ↔ StartsWith i.Name "err" ∨ StartsWith i.Name "Err" := by
  unfold looksLikeError Ident.IsExported
  constructor
  · intro h
    by_cases he : IsExported deps i.Name = true
    · simp only [he, if_true] at h
      exact Or.inr ((hasPrefix_iff _ _).1 h)
    · simp only [he] at h
      exact Or.inl ((hasPrefix_iff _ _).1 h)
  · rintro (⟨t, ht⟩ | ⟨t, ht⟩)
    · have he := isExported_err deps t
      rw [← ht] at he
      simp only [he]
      exact (hasPrefix_iff _ _).2 ⟨t, ht⟩
    · have he := isExported_Err deps t
      rw [← ht] at he
      simp only [he, if_true]
      exact (hasPrefix_iff _ _).2 ⟨t, ht⟩

theorem checkFileForGlobals_some (deps : Deps) (f : File) (fset : FileSet) (res : List Issue)
    (h : checkFileForGlobals deps f fset = some res) :
    f.onlyValueSpecs = true ∧ res = expectedFindings deps fset f := by
  rw [checkFileForGlobals_eq] at h
  by_cases hv : f.onlyValueSpecs = true
  · simp only [hv, if_true, Option.some.injEq] at h
    exact ⟨hv, h.symm⟩
  · simp [hv] at h

theorem notWhitelisted_sublist (deps : Deps) (ns : List Ident) :
    (notWhitelisted deps ns).Sublist ns :=
  List.filter_sublist ns

theorem mem_notWhitelisted (deps : Deps) (ns : List Ident) (n : Ident) :
    n ∈ notWhitelisted deps ns ↔ n ∈ ns ∧ isWhitelisted deps (.expr (.Ident n)) = false := by
  simp [notWhitelisted]

theorem isWhitelisted_ident (deps : Deps) (i : Ident) :
    isWhitelisted deps (.expr (.Ident i)) =
      (i.Name == "_" || i.Name == "version" || looksLikeError deps i) := rfl

theorem mem_varNames (f : File) (g : GenDecl) (vs : ValueSpec) (vn : Ident)
    (hg : Decl.GenDecl g ∈ f.Decls) (hvar : g.Tok = Token.VAR)
    (hvs : Spec.ValueSpec vs ∈ g.Specs) (hvn : vn ∈ vs.Names) : vn ∈ f.varNames := by
  simp only [File.varNames, File.varSpecs, List.mem_flatMap]
  exact ⟨.ValueSpec vs, ⟨.GenDecl g, hg, by simpa [Decl.varSpecs, hvar] using hvs⟩, hvn⟩

/-! ## The claims -/

/-- C1: for a file whose var groups contain only value specs,
`checkFileForGlobals` returns the findings of the declared names of the
top-level var groups that are not whitelisted, in source order (declarations,
then specs, then names), one finding per such name and no other. -/
theorem checkFileForGlobals_eq_expectedFindings (deps : Deps) (f : File) (fset : FileSet)
    (h : f.onlyValueSpecs = true) :
    checkFileForGlobals deps f fset = some (expectedFindings deps fset f) ∧
      (expectedFindings deps fset f).length =
        f.varNames.countP (fun n => !isWhitelisted deps (.expr (.Ident n))) := by
  refine ⟨by rw [checkFileForGlobals_eq, h]; rfl, ?_⟩
  simp [expectedFindings, notWhitelisted, List.countP_eq_length_filter]

/-- Witness of C1 on the file `mixedFile`. -/
theorem checkFileForGlobals_eq_expectedFindings_witness :
    mixedFile.onlyValueSpecs = true ∧
      (checkFileForGlobals plainDeps mixedFile lineFileSet =
          some (expectedFindings plainDeps lineFileSet mixedFile) ∧
        (expectedFindings plainDeps lineFileSet mixedFile).length =
          mixedFile.varNames.countP (fun n => !isWhitelisted plainDeps (.expr (.Ident n)))) :=
  ⟨by decide, checkFileForGlobals_eq_expectedFindings plainDeps mixedFile lineFileSet (by decide)⟩

/-- C2 (the code at the failing input): for the file `var foo = errors.New("x")`
the initializer is whitelisted as a node, yet `checkFileForGlobals` returns a
finding for the name `foo`. -/
theorem checkFileForGlobals_errorsNew_flagged (deps : Deps) (fset : FileSet) :
    isWhitelisted deps
        (.expr (selectorCall ⟨22, "errors"⟩ ⟨29, "New"⟩ [.BasicLit "STRING" "\"x\""])) = true ∧
      checkFileForGlobals deps errorsNewFile fset = some [newIssue deps fset ⟨16, "foo"⟩] :=
  ⟨rfl, rfl⟩

/-- C3: on the scenario file (`Foo`, `_`, `errBar`, `version`, `Handler`)
`checkFileForGlobals` returns exactly two findings, the one for `Foo` and then
the one for `Handler`. -/
theorem checkFileForGlobals_scenario (deps : Deps) (fset : FileSet) (pos : Nat → Pos) :
    checkFileForGlobals deps (scenarioFile pos) fset =
      some [newIssue deps fset ⟨pos 1, "Foo"⟩, newIssue deps fset ⟨pos 8, "Handler"⟩] :=
  rfl

/-- C4: the findings returned by `checkFileForGlobals` are the findings of
declared names of the var groups (in order, one per occurrence), none of which
is unexported and begins with "err" or is exported and begins with "Err". -/
theorem checkFileForGlobals_skips_error_names (deps : Deps) (f : File) (fset : FileSet)
    (res : List Issue) (h : checkFileForGlobals deps f fset = some res) :
    ∃ ns : List Ident, ns.Sublist f.varNames ∧ res = ns.map (newIssue deps fset) ∧
      ∀ n ∈ ns, ¬ (n.IsExported deps = false ∧ StartsWith n.Name "err") ∧
        ¬ (n.IsExported deps = true ∧ StartsWith n.Name "Err") := by
  obtain ⟨-, hres⟩ := checkFileForGlobals_some deps f fset res h
  refine ⟨notWhitelisted deps f.varNames, notWhitelisted_sublist _ _, hres, ?_⟩
  intro n hn
  have hw := ((mem_notWhitelisted _ _ _).1 hn).2
  rw [isWhitelisted_ident] at hw
  have hl : ¬ looksLikeError deps n = true := by
    intro hl; simp [hl] at hw
  rw [looksLikeError_iff] at hl
  exact ⟨fun hc => hl (Or.inl hc.2), fun hc => hl (Or.inr hc.2)⟩

/-- Witness of C4 on the file `mixedFile`, which declares `errA` and `ErrB`. -/
theorem checkFileForGlobals_skips_error_names_witness :
    checkFileForGlobals plainDeps mixedFile lineFileSet = some mixedFindings ∧
      ∃ ns : List Ident, ns.Sublist mixedFile.varNames ∧
        mixedFindings = ns.map (newIssue plainDeps lineFileSet) ∧
        ∀ n ∈ ns, ¬ (n.IsExported plainDeps = false ∧ StartsWith n.Name "err") ∧
          ¬ (n.IsExported plainDeps = true ∧ StartsWith n.Name "Err") :=
  ⟨by decide,
    checkFileForGlobals_skips_error_names plainDeps mixedFile lineFileSet mixedFindings
      (by decide)⟩

/-- C5: `looksLikeError` holds exactly of the names that begin with "err" or
with "Err"; a name that begins with "err" is never exported and a name that
begins with "Err" always is. -/
theorem looksLikeError_iff_startsWith (deps : Deps) (i : Ident) :
    (looksLikeError deps i = true ↔ StartsWith i.Name "err" ∨ StartsWith i.Name "Err") ∧
      (∀ t : String, IsExported deps ("err" ++ t) = false) ∧
      (∀ t : String, IsExported deps ("Err" ++ t) = true) :=
  ⟨looksLikeError_iff deps i, isExported_err deps, isExported_Err deps⟩

/-- C6: `isWhitelisted` is true on the identifier `version` and false on the
identifier `Version`; the findings returned by `checkFileForGlobals` are the
findings of declared names of the var groups, none named `version`, and every
declared name `Version` is among them. -/
theorem checkFileForGlobals_version_case_sensitive (deps : Deps) (f : File) (fset : FileSet)
    (res : List Issue) (h : checkFileForGlobals deps f fset = some res) :
    (∀ p : Pos, isWhitelisted deps (.expr (.Ident ⟨p, "version"⟩)) = true) ∧
      (∀ p : Pos, isWhitelisted deps (.expr (.Ident ⟨p, "Version"⟩)) = false) ∧
      ∃ ns : List Ident, ns.Sublist f.varNames ∧ res = ns.map (newIssue deps fset) ∧
        (∀ n ∈ ns, n.Name ≠ "version") ∧
        ns.filter (fun n => n.Name == "Version") =
          f.varNames.filter (fun n => n.Name == "Version") := by
  have hV : ∀ p : Pos, isWhitelisted deps (.expr (.Ident ⟨p, "Version"⟩)) = false :=
    fun _ => rfl
  obtain ⟨-, hres⟩ := checkFileForGlobals_some deps f fset res h
  refine ⟨fun _ => rfl, hV, notWhitelisted deps f.varNames, notWhitelisted_sublist _ _, hres,
    ?_, ?_⟩
  · intro n hn hname
    have hw := ((mem_notWhitelisted _ _ _).1 hn).2
    rw [isWhitelisted_ident] at hw
    simp [hname] at hw
  · simp only [notWhitelisted, List.filter_filter]
    apply List.filter_congr
    intro n _
    by_cases hn : n.Name = "Version"
    · have : n = ⟨n.NamePos, "Version"⟩ := by rw [← hn]
      rw [this, hV]; rfl
    · simp [hn]

/-- Witness of C6 on the file `mixedFile`, which declares `Version` and
`version`. -/
theorem checkFileForGlobals_version_case_sensitive_witness :
    checkFileForGlobals plainDeps mixedFile lineFileSet = some mixedFindings ∧
      (∀ p : Pos, isWhitelisted plainDeps (.expr (.Ident ⟨p, "version"⟩)) = true) ∧
      (∀ p : Pos, isWhitelisted plainDeps (.expr (.Ident ⟨p, "Version"⟩)) = false) ∧
      ∃ ns : List Ident, ns.Sublist mixedFile.varNames ∧
        mixedFindings = ns.map (newIssue plainDeps lineFileSet) ∧
        (∀ n ∈ ns, n.Name ≠ "version") ∧
        ns.filter (fun n => n.Name == "Version") =
          mixedFile.varNames.filter (fun n => n.Name == "Version") :=
  ⟨by decide,
    checkFileForGlobals_version_case_sensitive plainDeps mixedFile lineFileSet mixedFindings
      (by decide)⟩

/-- C7: the findings returned by `checkFileForGlobals` are the findings of
declared names of the var groups, none of which is the discard placeholder
`_`; the identifier `_` is whitelisted. -/
theorem checkFileForGlobals_skips_blank (deps : Deps) (f : File) (fset : FileSet)
    (res : List Issue) (h : checkFileForGlobals deps f fset = some res) :
    (∀ p : Pos, isWhitelisted deps (.expr (.Ident ⟨p, "_"⟩)) = true) ∧
      ∃ ns : List Ident, ns.Sublist f.varNames ∧ res = ns.map (newIssue deps fset) ∧
        ∀ n ∈ ns, n.Name ≠ "_" := by
  obtain ⟨-, hres⟩ := checkFileForGlobals_some deps f fset res h
  refine ⟨fun _ => rfl, notWhitelisted deps f.varNames, notWhitelisted_sublist _ _, hres, ?_⟩
  intro n hn hname
  have hw := ((mem_notWhitelisted _ _ _).1 hn).2
  rw [isWhitelisted_ident] at hw
  simp [hname] at hw

/-- Witness of C7 on the file `mixedFile`, which declares `_`. -/
theorem checkFileForGlobals_skips_blank_witness :
    checkFileForGlobals plainDeps mixedFile lineFileSet = some mixedFindings ∧
      (∀ p : Pos, isWhitelisted plainDeps (.expr (.Ident ⟨p, "_"⟩)) = true) ∧
      ∃ ns : List Ident, ns.Sublist mixedFile.varNames ∧
        mixedFindings = ns.map (newIssue plainDeps lineFileSet) ∧ ∀ n ∈ ns, n.Name ≠ "_" :=
  ⟨by decide,
    checkFileForGlobals_skips_blank plainDeps mixedFile lineFileSet mixedFindings (by decide)⟩

/-- C8: a declared name of a top-level var group whose initializer is a call
`owner.member(...)` with a pair of names outside the whitelist, and which is
not `_`, not `version` and does not look like an error name, has its finding
in the result of `checkFileForGlobals`; the initializer is not whitelisted. -/
theorem checkFileForGlobals_flags_unlisted_call (deps : Deps) (f : File) (fset : FileSet)
    (res : List Issue) (h : checkFileForGlobals deps f fset = some res)
    (g : GenDecl) (hg : Decl.GenDecl g ∈ f.Decls) (hvar : g.Tok = Token.VAR)
    (vs : ValueSpec) (hvs : Spec.ValueSpec vs ∈ g.Specs)
    (vn : Ident) (hvn : vn ∈ vs.Names)
    (owner member : Ident) (args : List Expr)
    (_hinit : selectorCall owner member args ∈ vs.Values)
    (hpair : (owner.Name, member.Name) ∉
      [("errors", "New"), ("fmt", "Errorf"), ("regexp", "MustCompile")])
    (hblank : vn.Name ≠ "_") (hversion : vn.Name ≠ "version")
    (herr : looksLikeError deps vn = false) :
    isWhitelisted deps (.expr (selectorCall owner member args)) = false ∧
      newIssue deps fset vn ∈ res := by
  constructor
  · have : isWhitelisted deps (.expr (selectorCall owner member args)) =
        whitelist.any (fun i => owner.Name == i.Name && member.Name == i.SelName) := rfl
    rw [this]
    simp only [List.mem_cons, Prod.mk.injEq, List.mem_singleton, List.not_mem_nil, or_false,
      not_or, not_and] at hpair
    simp only [whitelist, List.any_cons, List.any_nil, Bool.or_false, Bool.or_eq_false_iff,
      Bool.and_eq_false_imp, beq_iff_eq, beq_eq_false_iff_ne, ne_eq]
    exact hpair
  · obtain ⟨-, hres⟩ := checkFileForGlobals_some deps f fset res h
    rw [hres, expectedFindings]
    apply List.mem_map_of_mem
    rw [mem_notWhitelisted]
    refine ⟨mem_varNames f g vs vn hg hvar hvs hvn, ?_⟩
    rw [isWhitelisted_ident]
    simp [hblank, hversion, herr]

/-- Witness of C8 on the declaration `var r = pkg.New()` of `mixedFile`. -/
theorem checkFileForGlobals_flags_unlisted_call_witness :
    checkFileForGlobals plainDeps mixedFile lineFileSet = some mixedFindings ∧
      isWhitelisted plainDeps (.expr (selectorCall ⟨145, "pkg"⟩ ⟨149, "New"⟩ [])) = false ∧
      newIssue plainDeps lineFileSet ⟨141, "r"⟩ ∈ mixedFindings :=
  ⟨by decide,
    checkFileForGlobals_flags_unlisted_call plainDeps mixedFile lineFileSet mixedFindings
      (by decide)
      ⟨137, Token.VAR,
        [.ValueSpec ⟨[⟨141, "r"⟩], none, [selectorCall ⟨145, "pkg"⟩ ⟨149, "New"⟩ []]⟩]⟩
      (.tail _ (.tail _ (.tail _ (.tail _ (.tail _ (.tail _ (.head _)))))))
      rfl
      ⟨[⟨141, "r"⟩], none, [selectorCall ⟨145, "pkg"⟩ ⟨149, "New"⟩ []]⟩ (.head _)
      ⟨141, "r"⟩ (.head _)
      ⟨145, "pkg"⟩ ⟨149, "New"⟩ [] (.head _)
      (by decide) (by decide) (by decide) (by decide)⟩

/-- C9: a call expression is whitelisted exactly when its function, and a
composite literal exactly when its type, is a selector expression
`owner.member` with `owner` a plain identifier and the pair of names one of
`errors.New`, `fmt.Errorf`, `regexp.MustCompile`; it is not when the owner is
itself a selector expression, when the function is a plain identifier, or when
the literal has no type. -/
theorem isWhitelisted_call_composite_iff (deps : Deps) :
    (∀ (func : Expr) (args : List Expr),
        isWhitelisted deps (.expr (.CallExpr func args)) = true ↔ ListedSelector func) ∧
      (∀ (type : Option Expr) (elts : List Expr),
        isWhitelisted deps (.expr (.CompositeLit type elts)) = true ↔
          ∃ t : Expr, type = some t ∧ ListedSelector t) ∧
      (∀ (x : Expr) (y sel : Ident) (args : List Expr),
        isWhitelisted deps (.expr (.CallExpr (.SelectorExpr (.SelectorExpr x y) sel) args)) = false ∧
        isWhitelisted deps
          (.expr (.CompositeLit (some (.SelectorExpr (.SelectorExpr x y) sel)) args)) = false) ∧
      (∀ (i : Ident) (args : List Expr),
        isWhitelisted deps (.expr (.CallExpr (.Ident i) args)) = false ∧
        isWhitelisted deps (.expr (.CompositeLit (some (.Ident i)) args)) = false ∧
        isWhitelisted deps (.expr (.CompositeLit none args)) = false) := by
  have hsel : ∀ (x : Expr) (sel : Ident),
      isWhitelistedSelectorExpression x sel = true ↔ ListedSelector (.SelectorExpr x sel) := by
    intro x sel
    cases x with
    | Ident o =>
      simp only [isWhitelistedSelectorExpression, ListedSelector, whitelist, List.any_cons,
        List.any_nil, Bool.or_false, Bool.or_eq_true, Bool.and_eq_true, beq_iff_eq]
      constructor
      · intro h
        exact ⟨o, sel, rfl, h⟩
      · rintro ⟨owner, member, heq, h⟩
        cases heq
        exact h
    | _ => simp [isWhitelistedSelectorExpression, ListedSelector]
  refine ⟨?_, ?_, fun _ _ _ _ => ⟨rfl, rfl⟩, fun _ _ => ⟨rfl, rfl, rfl⟩⟩
  · intro func args
    cases func <;> first
      | exact hsel _ _
      | simp [isWhitelisted, ListedSelector]
  · intro type elts
    cases type with
    | none => simp [isWhitelisted]
    | some t =>
      cases t <;> first
        | simpa using hsel _ _
        | simp [isWhitelisted, ListedSelector]

/-- C10: a file without a top-level var declaration yields the empty list of
findings, and no panic. -/
theorem checkFileForGlobals_no_var (deps : Deps) (f : File) (fset : FileSet)
    (h : ∀ d ∈ f.Decls, d.isVarGroup = false) :
    checkFileForGlobals deps f fset = some [] := by
  have hs : f.varSpecs = [] := by
    simp only [File.varSpecs, List.flatMap_eq_nil_iff]
    intro d hd
    have hd2 := h d hd
    cases d with
    | BadDecl => rfl
    | FuncDecl n => rfl
    | GenDecl g =>
      have : ¬ g.Tok = Token.VAR := by simpa [Decl.isVarGroup] using hd2
      simp [Decl.varSpecs, this]
  simp [checkFileForGlobals_eq, File.onlyValueSpecs, expectedFindings, File.varNames, hs,
    notWhitelisted]

/-- Witness of C10 on the file `noVarFile`. -/
theorem checkFileForGlobals_no_var_witness :
    (∀ d ∈ noVarFile.Decls, d.isVarGroup = false) ∧
      checkFileForGlobals plainDeps noVarFile lineFileSet = some [] :=
  ⟨by decide, checkFileForGlobals_no_var plainDeps noVarFile lineFileSet (by decide)⟩

/-! ## Further lemmas on the scanner -/

theorem varSpecs_filter_isVarGroup (ds : List Decl) :
    (ds.filter Decl.isVarGroup).flatMap Decl.varSpecs = ds.flatMap Decl.varSpecs := by
  induction ds with
  | nil => rfl
  | cons d rest ih =>
    cases d with
    | BadDecl => simpa [Decl.isVarGroup, Decl.varSpecs] using ih
    | FuncDecl n => simpa [Decl.isVarGroup, Decl.varSpecs] using ih
    | GenDecl g =>
      by_cases hv : g.Tok = Token.VAR
      · simp [Decl.isVarGroup, Decl.varSpecs, hv, ih]
      · simpa [Decl.isVarGroup, Decl.varSpecs, hv] using ih

/-- The result of the scanner depends on the file through the specs of its var
groups only. -/
theorem checkFileForGlobals_congr (deps : Deps) (fset : FileSet) (f1 f2 : File)
    (hok : f1.onlyValueSpecs = f2.onlyValueSpecs) (hnames : f1.varNames = f2.varNames) :
    checkFileForGlobals deps f1 fset = checkFileForGlobals deps f2 fset := by
  rw [checkFileForGlobals_eq, checkFileForGlobals_eq, hok, expectedFindings, expectedFindings,
    hnames]

theorem exists_of_mem_varNames (f : File) (n : Ident) (hn : n ∈ f.varNames) :
    ∃ (g : GenDecl) (vs : ValueSpec), Decl.GenDecl g ∈ f.Decls ∧ g.Tok = Token.VAR ∧
      Spec.ValueSpec vs ∈ g.Specs ∧ n ∈ vs.Names := by
  simp only [File.varNames, File.varSpecs, List.mem_flatMap] at hn
  obtain ⟨s, ⟨d, hd, hs⟩, hns⟩ := hn
  cases d with
  | BadDecl => simp [Decl.varSpecs] at hs
  | FuncDecl m => simp [Decl.varSpecs] at hs
  | GenDecl g =>
    by_cases hv : g.Tok = Token.VAR
    · simp only [Decl.varSpecs, hv, if_true] at hs
      cases s with
      | ValueSpec vs => exact ⟨g, vs, hd, hv, hs, hns⟩
      | ImportSpec a b => simp [Spec.names] at hns
      | TypeSpec a b => simp [Spec.names] at hns
    · simp [Decl.varSpecs, hv] at hs

theorem forall₂_map_newIssue (deps : Deps) (fset : FileSet) (R : Ident → Issue → Prop)
    (ns : List Ident) (hR : ∀ n ∈ ns, R n (newIssue deps fset n)) :
    List.Forall₂ R ns (ns.map (newIssue deps fset)) := by
  rw [List.forall₂_map_right_iff, List.forall₂_same]
  exact hR

theorem onlyValueSpecs_eq_false_iff (f : File) :
    f.onlyValueSpecs = false ↔
      ∃ (g : GenDecl) (s : Spec), Decl.GenDecl g ∈ f.Decls ∧ g.Tok = Token.VAR ∧ s ∈ g.Specs ∧
        s.isValueSpec = false := by
  constructor
  · intro h
    have h2 : ¬ f.varSpecs.all Spec.isValueSpec = true := by
      simpa [File.onlyValueSpecs] using h
    simp only [List.all_eq_true, not_forall] at h2
    obtain ⟨s, hs, hbad⟩ := h2
    simp only [File.varSpecs, List.mem_flatMap] at hs
    obtain ⟨d, hd, hsd⟩ := hs
    cases d with
    | BadDecl => simp [Decl.varSpecs] at hsd
    | FuncDecl m => simp [Decl.varSpecs] at hsd
    | GenDecl g =>
      by_cases hv : g.Tok = Token.VAR
      · simp only [Decl.varSpecs, hv, if_true] at hsd
        exact ⟨g, s, hd, hv, hsd, by simpa using hbad⟩
      · simp [Decl.varSpecs, hv] at hsd
  · rintro ⟨g, s, hg, hv, hs, hbad⟩
    have hmem : s ∈ f.varSpecs := by
      simp only [File.varSpecs, List.mem_flatMap]
      exact ⟨.GenDecl g, hg, by simpa [Decl.varSpecs, hv] using hs⟩
    by_contra hne
    have hall : f.varSpecs.all Spec.isValueSpec = true := by
      simpa [File.onlyValueSpecs] using hne
    rw [List.all_eq_true] at hall
    rw [hall s hmem] at hbad
    exact Bool.noConfusion hbad

/-! ## The claims on the scanner as a whole -/

/-- C11: `checkFileForGlobals` returns the same result on a file and on the
file with every top-level declaration that is not a var group removed; on the
file `noVarFile`, with a constant `Foo` and a type `Handler`, it reports
nothing. -/
theorem checkFileForGlobals_keepVarGroups (deps : Deps) (f : File) (fset : FileSet) :
    checkFileForGlobals deps f.keepVarGroups fset = checkFileForGlobals deps f fset ∧
      checkFileForGlobals deps noVarFile fset = some [] := by
  refine ⟨?_, rfl⟩
  apply checkFileForGlobals_congr
  · simp [File.onlyValueSpecs, File.varSpecs, File.keepVarGroups, varSpecs_filter_isVarGroup]
  · simp [File.varNames, File.varSpecs, File.keepVarGroups, varSpecs_filter_isVarGroup]

/-- C12: with the name rendered as it is spelled, every finding returned by
`checkFileForGlobals` belongs to a declared name `n` of a var group and has the
text `n` followed by " is a global variable" and the linter name
"gochecknoglobals"; for the name `Foo` the text is "Foo is a global variable". -/
theorem checkFileForGlobals_text (deps : Deps) (f : File) (fset : FileSet) (res : List Issue)
    (h : checkFileForGlobals deps f fset = some res)
    (hfmt : ∀ code : String, deps.formatCode code = formatCode code) :
    (∃ ns : List Ident, ns.Sublist f.varNames ∧
        List.Forall₂ (fun n iss => iss.Text = n.Name ++ " is a global variable" ∧
          iss.FromLinter = "gochecknoglobals") ns res) ∧
      ∀ p : Pos, (newIssue deps fset ⟨p, "Foo"⟩).Text = "Foo is a global variable" := by
  obtain ⟨-, hres⟩ := checkFileForGlobals_some deps f fset res h
  refine ⟨⟨notWhitelisted deps f.varNames, notWhitelisted_sublist _ _, ?_⟩, ?_⟩
  · rw [hres, expectedFindings]
    apply forall₂_map_newIssue
    intro n _
    exact ⟨by simp [newIssue, hfmt, formatCode], rfl⟩
  · intro p
    simp only [newIssue, hfmt, formatCode]
    decide

/-- Witness of C12 on the file `mixedFile`. -/
theorem checkFileForGlobals_text_witness :
    checkFileForGlobals plainDeps mixedFile lineFileSet = some mixedFindings ∧
      (∃ ns : List Ident, ns.Sublist mixedFile.varNames ∧
        List.Forall₂ (fun n iss => iss.Text = n.Name ++ " is a global variable" ∧
          iss.FromLinter = "gochecknoglobals") ns mixedFindings) ∧
      ∀ p : Pos, (newIssue plainDeps lineFileSet ⟨p, "Foo"⟩).Text = "Foo is a global variable" :=
  ⟨by decide,
    checkFileForGlobals_text plainDeps mixedFile lineFileSet mixedFindings (by decide)
      (fun _ => rfl)⟩

theorem keywordFirst_lt (f : File) (hkw : f.keywordFirst = true) (g : GenDecl) (vs : ValueSpec)
    (n : Ident) (hg : Decl.GenDecl g ∈ f.Decls) (hvs : Spec.ValueSpec vs ∈ g.Specs)
    (hn : n ∈ vs.Names) : g.Pos < n.Pos := by
  simp only [File.keywordFirst, List.all_eq_true] at hkw
  have h1 := hkw _ hg
  simp only [List.all_eq_true] at h1
  have h2 := h1 _ hvs n (by simpa [Spec.names] using hn)
  simpa using h2

theorem lineFileSet_injective : Function.Injective lineFileSet.Position := by
  intro p q hpq
  have h := congrArg Position.Offset hpq
  simpa [lineFileSet] using h

/-- C13 (the claim as stated fails): on the file `var foo = errors.New("x")`
the one finding has the position of the name `foo`, which is also the position
of the enclosing value spec. -/
theorem posOfNameOnly_fails_on_first_name :
    ∃ res : List Issue, checkFileForGlobals plainDeps errorsNewFile lineFileSet = some res ∧
      ¬ PosOfNameOnly lineFileSet errorsNewFile res := by
  refine ⟨[newIssue plainDeps lineFileSet ⟨16, "foo"⟩], rfl, ?_⟩
  intro hall
  obtain ⟨g, vs, n, hg, -, hvs, -, -, -, hspec⟩ := hall _ (List.mem_singleton.2 rfl)
  simp only [errorsNewFile, varDecl, List.mem_singleton, Decl.GenDecl.injEq] at hg
  subst hg
  simp only [List.mem_singleton, Spec.ValueSpec.injEq] at hvs
  subst hvs
  exact hspec 16 rfl rfl

theorem namesAscending_pairwise (f : File) (hasc : f.namesAscending = true) (g : GenDecl)
    (vs : ValueSpec) (hg : Decl.GenDecl g ∈ f.Decls) (hvs : Spec.ValueSpec vs ∈ g.Specs) :
    (vs.Names.map Ident.Pos).Pairwise (fun p q => p < q) := by
  simp only [File.namesAscending, List.all_eq_true] at hasc
  have h1 := hasc _ hg
  simp only [List.all_eq_true] at h1
  have h2 := h1 _ hvs
  simpa [Spec.names] using h2

theorem keyword_mem_varPositions (f : File) (g : GenDecl) (hg : Decl.GenDecl g ∈ f.Decls)
    (hv : g.Tok = Token.VAR) : g.Pos ∈ f.varPositions := by
  simp only [File.varPositions, List.mem_flatMap]
  exact ⟨.GenDecl g, hg, by simp [hv]⟩

theorem name_mem_varPositions (f : File) (g : GenDecl) (vs : ValueSpec) (n : Ident)
    (hg : Decl.GenDecl g ∈ f.Decls) (hv : g.Tok = Token.VAR)
    (hvs : Spec.ValueSpec vs ∈ g.Specs) (hn : n ∈ vs.Names) : n.Pos ∈ f.varPositions := by
  simp only [File.varPositions, List.mem_flatMap]
  refine ⟨.GenDecl g, hg, ?_⟩
  simp only [hv, if_true, List.mem_cons, List.mem_flatMap, List.mem_map]
  exact Or.inr ⟨.ValueSpec vs, hvs, n, hn, rfl⟩

/-- The names reported by the scanner are declared names of var groups. -/
theorem exists_posOfName (deps : Deps) (f : File) (fset : FileSet) (res : List Issue)
    (h : checkFileForGlobals deps f fset = some res) (iss : Issue) (hiss : iss ∈ res) :
    ∃ (g : GenDecl) (vs : ValueSpec) (n : Ident), PosOfName fset f iss g vs n := by
  obtain ⟨-, hres⟩ := checkFileForGlobals_some deps f fset res h
  rw [hres, expectedFindings, List.mem_map] at hiss
  obtain ⟨n, hn, rfl⟩ := hiss
  obtain ⟨g, vs, hg, hv, hvs, hnvs⟩ :=
    exists_of_mem_varNames f n ((mem_notWhitelisted _ _ _).1 hn).1
  exact ⟨g, vs, n, hg, hv, hvs, hnvs, rfl⟩

/-- C13 (amended): every finding returned by `checkFileForGlobals` has the
position of the identifier of a declared name of a top-level var group, and
distinct findings belong to distinct occurrences of declared names, in order;
for the first name of a value spec this is the position of the value spec.
When the file set resolves the positions of the keywords and names of the var
groups to distinct source positions, the position is not that of the
enclosing var group if the keyword of a group lies before its names, and not
that of the enclosing value spec for a name that is not the first of its spec
if the names of a spec stand at increasing positions. -/
theorem checkFileForGlobals_pos (deps : Deps) (f : File) (fset : FileSet) (res : List Issue)
    (h : checkFileForGlobals deps f fset = some res) :
    (∃ ns : List Ident, ns.Sublist f.varNames ∧
        List.Forall₂ (fun n iss => iss.Pos = fset.Position n.Pos) ns res) ∧
      ∀ iss ∈ res, ∃ (g : GenDecl) (vs : ValueSpec) (n : Ident), PosOfName fset f iss g vs n ∧
        (vs.Names.head? = some n → vs.Pos.map fset.Position = some iss.Pos) ∧
        (ResolvesDistinct fset f.varPositions → f.keywordFirst = true →
          iss.Pos ≠ fset.Position g.Pos) ∧
        (ResolvesDistinct fset f.varPositions → f.namesAscending = true →
          vs.Names.head? ≠ some n → vs.Pos.map fset.Position ≠ some iss.Pos) := by
  constructor
  · obtain ⟨-, hres⟩ := checkFileForGlobals_some deps f fset res h
    refine ⟨notWhitelisted deps f.varNames, notWhitelisted_sublist _ _, ?_⟩
    rw [hres, expectedFindings]
    exact forall₂_map_newIssue deps fset _ _ (fun _ _ => rfl)
  · intro iss hiss
    obtain ⟨g, vs, n, hp⟩ := exists_posOfName deps f fset res h iss hiss
    obtain ⟨hg, hv, hvs, hn, hpos⟩ := hp
    refine ⟨g, vs, n, ⟨hg, hv, hvs, hn, hpos⟩, ?_, ?_, ?_⟩
    · intro hhead
      rw [ValueSpec.Pos, hhead, hpos]
      rfl
    · intro hres hkw heq
      have hlt := keywordFirst_lt f hkw g vs n hg hvs hn
      have hgn : g.Pos = n.Pos :=
        hres _ (keyword_mem_varPositions f g hg hv) _
          (name_mem_varPositions f g vs n hg hv hvs hn) (by rw [← heq, hpos])
      rw [hgn] at hlt
      exact Nat.lt_irrefl _ hlt
    · intro hres hasc hhead heq
      have hpw := namesAscending_pairwise f hasc g vs hg hvs
      cases hnames : vs.Names with
      | nil => rw [hnames] at hn; exact List.not_mem_nil _ hn
      | cons n0 rest =>
        rw [hnames] at hn hpw
        have hne : n ≠ n0 := by
          intro hnn
          apply hhead
          rw [hnames, hnn]
          rfl
        have hrest : n ∈ rest := by
          rcases List.mem_cons.1 hn with h0 | h0
          · exact absurd h0 hne
          · exact h0
        have hlt : n0.Pos < n.Pos := by
          simp only [List.map_cons, List.pairwise_cons, List.mem_map, forall_exists_index,
            and_imp] at hpw
          exact hpw.1 n.Pos n hrest rfl
        have hn0 : n0 ∈ vs.Names := by rw [hnames]; exact List.mem_cons_self _ _
        have hnv : n ∈ vs.Names := by rw [hnames]; exact List.mem_cons_of_mem _ hrest
        have heq2 : fset.Position n0.Pos = fset.Position n.Pos := by
          have h3 : vs.Pos.map fset.Position = some (fset.Position n0.Pos) := by
            rw [ValueSpec.Pos, hnames]; rfl
          rw [h3, hpos] at heq
          exact Option.some.inj heq
        have h00 : n0.Pos = n.Pos :=
          hres _ (name_mem_varPositions f g vs n0 hg hv hvs hn0) _
            (name_mem_varPositions f g vs n hg hv hvs hnv) heq2
        rw [h00] at hlt
        exact Nat.lt_irrefl _ hlt

/-- Witness of C13 (amended) on the file `mixedFile`, whose findings for `a`,
`Version`, `r` belong to first names and whose findings for `b`, `c` do not. -/
theorem checkFileForGlobals_pos_witness :
    (checkFileForGlobals plainDeps mixedFile lineFileSet = some mixedFindings ∧
        ResolvesDistinct lineFileSet mixedFile.varPositions ∧
        mixedFile.keywordFirst = true ∧ mixedFile.namesAscending = true) ∧
      (∃ ns : List Ident, ns.Sublist mixedFile.varNames ∧
        List.Forall₂ (fun n iss => iss.Pos = lineFileSet.Position n.Pos) ns mixedFindings) ∧
      ∀ iss ∈ mixedFindings, ∃ (g : GenDecl) (vs : ValueSpec) (n : Ident),
        PosOfName lineFileSet mixedFile iss g vs n ∧
          (vs.Names.head? = some n → vs.Pos.map lineFileSet.Position = some iss.Pos) ∧
          iss.Pos ≠ lineFileSet.Position g.Pos ∧
          (vs.Names.head? ≠ some n → vs.Pos.map lineFileSet.Position ≠ some iss.Pos) :=
  have hres : ResolvesDistinct lineFileSet mixedFile.varPositions :=
    fun _ _ _ _ hpq => lineFileSet_injective hpq
  have hthm :=
    checkFileForGlobals_pos plainDeps mixedFile lineFileSet mixedFindings (by decide)
  ⟨⟨by decide, hres, by decide, by decide⟩, hthm.1, fun iss hiss =>
    match hthm.2 iss hiss with
    | ⟨g, vs, n, hp, hfirst, hgroup, hlater⟩ =>
      ⟨g, vs, n, hp, hfirst, hgroup hres (by decide), hlater hres (by decide)⟩⟩

/-- C14: `checkFileForGlobals` panics exactly when a top-level var group holds
a spec that is not a value spec, and returns the expected findings otherwise;
the import spec in the type group of `noVarFile` causes no panic. -/
theorem checkFileForGlobals_panic_iff (deps : Deps) (f : File) (fset : FileSet) :
    (checkFileForGlobals deps f fset = none ↔
        ∃ (g : GenDecl) (s : Spec), Decl.GenDecl g ∈ f.Decls ∧ g.Tok = Token.VAR ∧
          s ∈ g.Specs ∧ s.isValueSpec = false) ∧
      (checkFileForGlobals deps f fset = none ∨
        checkFileForGlobals deps f fset = some (expectedFindings deps fset f)) ∧
      checkFileForGlobals deps noVarFile fset = some [] := by
  rw [← onlyValueSpecs_eq_false_iff, checkFileForGlobals_eq]
  refine ⟨?_, ?_, rfl⟩
  · cases f.onlyValueSpecs <;> simp
  · cases f.onlyValueSpecs <;> simp

/-! ## Initializers and the log of calls -/

theorem isValueSpec_eraseInit (s : Spec) : s.eraseInit.isValueSpec = s.isValueSpec := by
  cases s <;> rfl

theorem names_eraseInit (s : Spec) : s.eraseInit.names = s.names := by
  cases s <;> rfl

theorem varSpecs_eraseInit (d : Decl) : d.eraseInit.varSpecs = d.varSpecs.map Spec.eraseInit := by
  cases d with
  | BadDecl => rfl
  | FuncDecl n => rfl
  | GenDecl g =>
    by_cases hv : g.Tok = Token.VAR
    · simp [Decl.eraseInit, Decl.varSpecs, hv]
    · simp [Decl.eraseInit, Decl.varSpecs, hv]

theorem file_varSpecs_eraseInit (f : File) :
    f.eraseInit.varSpecs = f.varSpecs.map Spec.eraseInit := by
  simp only [File.varSpecs, File.eraseInit]
  induction f.Decls with
  | nil => rfl
  | cons d rest ih => simp [varSpecs_eraseInit, ih]

theorem checkFileForGlobals_eraseInit (deps : Deps) (fset : FileSet) (f : File) :
    checkFileForGlobals deps f.eraseInit fset = checkFileForGlobals deps f fset := by
  apply checkFileForGlobals_congr
  · simp only [File.onlyValueSpecs, file_varSpecs_eraseInit, List.all_map]
    congr 1
    funext s
    exact isValueSpec_eraseInit s
  · simp only [File.varNames, file_varSpecs_eraseInit]
    induction f.varSpecs with
    | nil => rfl
    | cons s rest ih => simp [names_eraseInit, ih]

theorem namesLoopTraced_eq (deps : Deps) (fset : FileSet) (ns : List Ident) (log : List Node)
    (res : List Issue) :
    namesLoopTraced deps fset ns (log, res) =
      (log ++ ns.map (fun n => Node.expr (.Ident n)), namesLoop deps fset ns res) := by
  induction ns generalizing log res with
  | nil => simp [namesLoopTraced, namesLoop]
  | cons vn rest ih =>
    by_cases h : isWhitelisted deps (.expr (.Ident vn)) = true
    · simp [namesLoopTraced, namesLoop, h, ih]
    · simp [namesLoopTraced, namesLoop, h, ih]

theorem specsLoopTraced_spec (deps : Deps) (fset : FileSet) (ss : List Spec) (log : List Node)
    (res : List Issue) (hlog : ∀ v ∈ log, ∃ n : Ident, v = .expr (.Ident n)) :
    (specsLoopTraced deps fset ss (log, res)).2 = specsLoop deps fset ss res ∧
      ∀ v ∈ (specsLoopTraced deps fset ss (log, res)).1, ∃ n : Ident, v = .expr (.Ident n) := by
  induction ss generalizing log res with
  | nil => exact ⟨rfl, hlog⟩
  | cons s rest ih =>
    cases s with
    | ValueSpec vs =>
      simp only [specsLoopTraced, specsLoop, namesLoopTraced_eq]
      apply ih
      intro v hv
      rcases List.mem_append.1 hv with h1 | h1
      · exact hlog v h1
      · obtain ⟨n, -, rfl⟩ := List.mem_map.1 h1
        exact ⟨n, rfl⟩
    | ImportSpec a b => exact ⟨rfl, hlog⟩
    | TypeSpec a b => exact ⟨rfl, hlog⟩

theorem declsLoopTraced_spec (deps : Deps) (fset : FileSet) (ds : List Decl) (log : List Node)
    (res : List Issue) (hlog : ∀ v ∈ log, ∃ n : Ident, v = .expr (.Ident n)) :
    (declsLoopTraced deps fset ds (log, res)).2 = declsLoop deps fset ds res ∧
      ∀ v ∈ (declsLoopTraced deps fset ds (log, res)).1, ∃ n : Ident, v = .expr (.Ident n) := by
  induction ds generalizing log res with
  | nil => exact ⟨rfl, hlog⟩
  | cons d rest ih =>
    cases d with
    | BadDecl => simpa [declsLoopTraced, declsLoop] using ih log res hlog
    | FuncDecl m => simpa [declsLoopTraced, declsLoop] using ih log res hlog
    | GenDecl g =>
      by_cases hv : g.Tok = Token.VAR
      · have hs := specsLoopTraced_spec deps fset g.Specs log res hlog
        simp only [declsLoopTraced, declsLoop, hv, ne_eq, not_true_eq_false, if_false]
        rw [← hs.1]
        rcases hsp : specsLoopTraced deps fset g.Specs (log, res) with ⟨log1, _ | res1⟩
        · rw [hsp] at hs
          exact ⟨rfl, hs.2⟩
        · rw [hsp] at hs
          exact ih log1 res1 hs.2
      · simpa [declsLoopTraced, declsLoop, hv] using ih log res hlog

/-- C16: two files that differ at most in the initializers and declared types
of the value specs of their var groups get the same result from
`checkFileForGlobals`; every node the scanner passes to `isWhitelisted` is an
identifier, never a call or a composite literal. -/
theorem checkFileForGlobals_ignores_initializers (deps : Deps) (fset : FileSet) (f1 f2 : File)
    (h : f1.eraseInit = f2.eraseInit) :
    checkFileForGlobals deps f1 fset = checkFileForGlobals deps f2 fset ∧
      (checkFileForGlobalsTraced deps f1 fset).2 = checkFileForGlobals deps f1 fset ∧
      ∀ v ∈ (checkFileForGlobalsTraced deps f1 fset).1, ∃ n : Ident, v = .expr (.Ident n) := by
  refine ⟨?_, declsLoopTraced_spec deps fset f1.Decls [] [] (by simp)⟩
  rw [← checkFileForGlobals_eraseInit deps fset f1, ← checkFileForGlobals_eraseInit deps fset f2,
    h]

/-- Witness of C16 on the files `mixedFile` and `mixedFileOtherInit`. -/
theorem checkFileForGlobals_ignores_initializers_witness :
    mixedFile.eraseInit = mixedFileOtherInit.eraseInit ∧
      checkFileForGlobals plainDeps mixedFile lineFileSet =
        checkFileForGlobals plainDeps mixedFileOtherInit lineFileSet ∧
      (checkFileForGlobalsTraced plainDeps mixedFile lineFileSet).2 =
        checkFileForGlobals plainDeps mixedFile lineFileSet ∧
      ∀ v ∈ (checkFileForGlobalsTraced plainDeps mixedFile lineFileSet).1,
        ∃ n : Ident, v = .expr (.Ident n) :=
  ⟨rfl, checkFileForGlobals_ignores_initializers plainDeps lineFileSet mixedFile
    mixedFileOtherInit rfl⟩

/-! ## Concatenating and splitting declarations -/

theorem splitNames_spec (tokPos : Pos) (typ : Option Expr) (ns : List Ident) (vals : List Expr) :
    ((splitNames tokPos typ ns vals).flatMap Decl.varSpecs).all Spec.isValueSpec = true ∧
      ((splitNames tokPos typ ns vals).flatMap Decl.varSpecs).flatMap Spec.names = ns := by
  induction ns generalizing vals with
  | nil => exact ⟨rfl, rfl⟩
  | cons n rest ih =>
    obtain ⟨h1, h2⟩ := ih vals.tail
    constructor
    · simpa [splitNames, Decl.varSpecs, Spec.isValueSpec] using h1
    · simpa [splitNames, Decl.varSpecs, Spec.names] using h2

theorem split_spec (d : Decl) :
    (d.split.flatMap Decl.varSpecs).all Spec.isValueSpec = d.varSpecs.all Spec.isValueSpec ∧
      (d.split.flatMap Decl.varSpecs).flatMap Spec.names = d.varSpecs.flatMap Spec.names := by
  cases d with
  | BadDecl => exact ⟨rfl, rfl⟩
  | FuncDecl m => exact ⟨rfl, rfl⟩
  | GenDecl g =>
    by_cases hv : g.Tok = Token.VAR
    · simp only [Decl.split, Decl.varSpecs, hv, if_true]
      induction g.Specs with
      | nil => exact ⟨rfl, rfl⟩
      | cons sp rest ih =>
        obtain ⟨h1, h2⟩ := ih
        cases sp with
        | ValueSpec vs =>
          obtain ⟨k1, k2⟩ := splitNames_spec g.TokPos vs.Typ vs.Names vs.Values
          constructor
          · simp only [List.flatMap_cons, List.flatMap_append, List.all_append, k1, h1,
              List.all_cons, Spec.isValueSpec, Bool.true_and]
          · simp only [List.flatMap_cons, List.flatMap_append, k2, h2, Spec.names]
        | ImportSpec a b =>
          constructor
          · simp [Decl.varSpecs, Spec.isValueSpec]
          · simpa [Decl.varSpecs, Spec.names] using h2
        | TypeSpec a b =>
          constructor
          · simp [Decl.varSpecs, Spec.isValueSpec]
          · simpa [Decl.varSpecs, Spec.names] using h2
    · simp [Decl.split, Decl.varSpecs, hv]

theorem wrapLoop_eq {α : Type} (NewIssue : Issue → Pass → α) (pass : Pass) (is : List Issue)
    (res : List α) :
    wrapLoop NewIssue pass is res = res ++ is.map (fun i => NewIssue i pass) := by
  induction is generalizing res with
  | nil => simp [wrapLoop]
  | cons i rest ih => simp [wrapLoop, ih]

theorem filesLoop_eq {α : Type} (deps : Deps) (NewIssue : Issue → Pass → α) (pass : Pass)
    (fs : List File) (res : List α) (h : ∀ f ∈ fs, f.onlyValueSpecs = true) :
    filesLoop deps NewIssue pass fs res =
      some (res ++ fs.flatMap (fun f =>
        ((checkFileForGlobals deps f pass.Fset).getD []).map (fun i => NewIssue i pass))) := by
  induction fs generalizing res with
  | nil => simp [filesLoop]
  | cons f rest ih =>
    have hf : checkFileForGlobals deps f pass.Fset = some (expectedFindings deps pass.Fset f) := by
      rw [checkFileForGlobals_eq, h f (List.mem_cons_self _ _)]; rfl
    simp only [filesLoop, hf, wrapLoop_eq, List.flatMap_cons, Option.getD_some]
    rw [ih _ (fun g hg => h g (List.mem_cons_of_mem _ hg)), List.append_assoc]

/-- C17: for two lists of declarations whose var groups hold only value specs,
the findings of the file with the declarations `d1 ++ d2` are the findings for
`d1` followed by the findings for `d2`; replacing a var group by single-name
var declarations of its names, in order, does not change the result. -/
theorem checkFileForGlobals_append (deps : Deps) (fset : FileSet) (name : Ident)
    (d1 d2 : List Decl) (h1 : File.onlyValueSpecs ⟨name, d1⟩ = true)
    (h2 : File.onlyValueSpecs ⟨name, d2⟩ = true) :
    (∃ r1 r2 : List Issue, checkFileForGlobals deps ⟨name, d1⟩ fset = some r1 ∧
        checkFileForGlobals deps ⟨name, d2⟩ fset = some r2 ∧
        checkFileForGlobals deps ⟨name, d1 ++ d2⟩ fset = some (r1 ++ r2)) ∧
      ∀ g : GenDecl,
        checkFileForGlobals deps ⟨name, d1 ++ Decl.split (.GenDecl g) ++ d2⟩ fset =
          checkFileForGlobals deps ⟨name, d1 ++ [.GenDecl g] ++ d2⟩ fset := by
  constructor
  · refine ⟨expectedFindings deps fset ⟨name, d1⟩, expectedFindings deps fset ⟨name, d2⟩, ?_, ?_,
      ?_⟩
    · rw [checkFileForGlobals_eq, h1]; rfl
    · rw [checkFileForGlobals_eq, h2]; rfl
    · have h12 : File.onlyValueSpecs ⟨name, d1 ++ d2⟩ = true := by
        simp only [File.onlyValueSpecs, File.varSpecs, List.flatMap_append, List.all_append,
          Bool.and_eq_true] at h1 h2 ⊢
        exact ⟨h1, h2⟩
      rw [checkFileForGlobals_eq, h12]
      simp [expectedFindings, File.varNames, File.varSpecs, notWhitelisted_append]
  · intro g
    obtain ⟨k1, k2⟩ := split_spec (.GenDecl g)
    apply checkFileForGlobals_congr
    · simp only [File.onlyValueSpecs, File.varSpecs, List.flatMap_append, List.all_append, k1,
        List.flatMap_cons, List.flatMap_nil, List.append_nil]
    · simp only [File.varNames, File.varSpecs, List.flatMap_append, k2, List.flatMap_cons,
        List.flatMap_nil, List.append_nil]

/-- Witness of C17 on the declarations of `errorsNewFile` and of `mixedFile`. -/
theorem checkFileForGlobals_append_witness :
    (∃ r1 r2 : List Issue,
        checkFileForGlobals plainDeps ⟨⟨9, "p"⟩, errorsNewFile.Decls⟩ lineFileSet = some r1 ∧
        checkFileForGlobals plainDeps ⟨⟨9, "p"⟩, mixedFile.Decls⟩ lineFileSet = some r2 ∧
        checkFileForGlobals plainDeps ⟨⟨9, "p"⟩, errorsNewFile.Decls ++ mixedFile.Decls⟩
          lineFileSet = some (r1 ++ r2)) ∧
      ∀ g : GenDecl,
        checkFileForGlobals plainDeps
            ⟨⟨9, "p"⟩, errorsNewFile.Decls ++ Decl.split (.GenDecl g) ++ mixedFile.Decls⟩
            lineFileSet =
          checkFileForGlobals plainDeps
            ⟨⟨9, "p"⟩, errorsNewFile.Decls ++ [.GenDecl g] ++ mixedFile.Decls⟩ lineFileSet :=
  checkFileForGlobals_append plainDeps lineFileSet ⟨9, "p"⟩ errorsNewFile.Decls mixedFile.Decls
    (by decide) (by decide)

/-! ## The analyzer's `Run` in a sequential run -/

theorem filesLoop_eq_none_iff {α : Type} (deps : Deps) (NewIssue : Issue → Pass → α)
    (pass : Pass) (fs : List File) (res : List α) :
    filesLoop deps NewIssue pass fs res = none ↔ ∃ f ∈ fs, f.onlyValueSpecs = false := by
  induction fs generalizing res with
  | nil => simp [filesLoop]
  | cons f rest ih =>
    cases hf : f.onlyValueSpecs with
    | true =>
      have hc : checkFileForGlobals deps f pass.Fset =
          some (expectedFindings deps pass.Fset f) := by
        rw [checkFileForGlobals_eq, hf]; rfl
      simp only [filesLoop, hc, ih, List.mem_cons, exists_eq_or_imp, hf, false_or]
      simp
    | false =>
      have hc : checkFileForGlobals deps f pass.Fset = none := by
        rw [checkFileForGlobals_eq, hf]; rfl
      simp only [filesLoop, hc, List.mem_cons, exists_eq_or_imp, hf, true_or]

/-- Outside the trees the parser builds: `Run` panics exactly on a pass with a
file that makes `checkFileForGlobals` panic, whatever the position of the file
in the pass. -/
theorem run_eq_none_iff {α : Type} (deps : Deps) (NewIssue : Issue → Pass → α) (pass : Pass)
    (resIssues : List α) :
    Run deps NewIssue pass resIssues = none ↔ ∃ f ∈ pass.Files, f.onlyValueSpecs = false := by
  rw [← filesLoop_eq_none_iff deps NewIssue pass pass.Files []]
  unfold Run
  cases filesLoop deps NewIssue pass pass.Files [] with
  | none => simp
  | some res => by_cases hl : res.length = 0 <;> simp [hl]

/-- C18: on a pass of parsed files (the var groups hold only value specs) a
sequential `Run` returns `(nil, nil)` and leaves in `resIssues` its previous
content followed by the findings of the files, in the order of the files and
in the order of `checkFileForGlobals` within a file, each wrapped by
`NewIssue`; when no file yields a finding, `resIssues` is unchanged. -/
theorem run_appends_findings {α : Type} (deps : Deps) (NewIssue : Issue → Pass → α)
    (pass : Pass) (resIssues : List α) (h : ∀ f ∈ pass.Files, f.onlyValueSpecs = true) :
    Run deps NewIssue pass resIssues =
        some ((none, none), resIssues ++ pass.Files.flatMap (fun f =>
          ((checkFileForGlobals deps f pass.Fset).getD []).map (fun i => NewIssue i pass))) ∧
      ((∀ f ∈ pass.Files, checkFileForGlobals deps f pass.Fset = some []) →
        Run deps NewIssue pass resIssues = some ((none, none), resIssues)) := by
  have hrun : Run deps NewIssue pass resIssues =
      some ((none, none), resIssues ++ pass.Files.flatMap (fun f =>
        ((checkFileForGlobals deps f pass.Fset).getD []).map (fun i => NewIssue i pass))) := by
    simp only [Run, filesLoop_eq deps NewIssue pass pass.Files [] h, List.nil_append]
    split
    · rename_i hlen
      rw [List.length_eq_zero.1 hlen, List.append_nil]
    · rfl
  refine ⟨hrun, fun hempty => ?_⟩
  rw [hrun]
  have hnil : pass.Files.flatMap (fun f =>
      ((checkFileForGlobals deps f pass.Fset).getD []).map (fun i => NewIssue i pass)) = [] := by
    rw [List.flatMap_eq_nil_iff]
    intro f hf
    rw [hempty f hf]; rfl
  rw [hnil, List.append_nil]

/-- Witness of C18 on the pass `samplePass`, whose files yield the findings of
`foo`, `a`, `Version`, `b`, `r`, `c`, and on the pass `quietPass`, whose files
yield none, both after the earlier content `earlierIssues`. -/
theorem run_appends_findings_witness :
    ((∀ f ∈ samplePass.Files, f.onlyValueSpecs = true) ∧
        Run plainDeps pairIssue samplePass earlierIssues =
          some ((none, none), earlierIssues ++
            (newIssue plainDeps lineFileSet ⟨16, "foo"⟩ :: mixedFindings).map
              (fun i => pairIssue i samplePass))) ∧
      ((∀ f ∈ quietPass.Files, f.onlyValueSpecs = true) ∧
        (∀ f ∈ quietPass.Files, checkFileForGlobals plainDeps f quietPass.Fset = some []) ∧
        Run plainDeps pairIssue quietPass earlierIssues = some ((none, none), earlierIssues)) :=
  ⟨⟨by decide, (run_appends_findings plainDeps pairIssue samplePass earlierIssues (by decide)).1⟩,
    ⟨by decide, by decide,
      (run_appends_findings plainDeps pairIssue quietPass earlierIssues (by decide)).2
        (by decide)⟩⟩

end Gochecknoglobals
